import Mathlib

/-!
Shallow embedding of `enterprise_catalog/apps/api_client/discovery.py`
(`DiscoveryApiClient`): the retry/backoff loop of
`_retrieve_metadata_for_content_filter`, the page traversal of
`get_metadata_by_query`, and the offset traversals of `get_courses` and
`get_programs`.  HTTP is modelled by an oracle mapping the index of each
physical request (in issue order) to its outcome; request parameter dicts
are association lists with Python `dict.update` semantics; raised
exceptions are an explicit error channel.
-/

namespace Discovery

/-- Values stored in a request-parameter dict (`True`, `100`, `'key'`, ...). -/
inductive PValue : Type
  | vb (x : Bool)
  | vn (x : Nat)
  | vs (x : String)
deriving DecidableEq, Repr

/-- A Python dict of request parameters, as an association list in insertion
order.  Keys are unique for dicts built by the client code. -/
abbrev Dict : Type := List (String × PValue)

/-- Set `d[k] = v`: replace the value in place if `k` is present, else append
(Python dict assignment/update semantics for a single key). -/
def dictInsert : Dict → String → PValue → Dict
  | [], k, v => [(k, v)]
  | (k0, v0) :: rest, k, v =>
    if k0 = k then (k, v) :: rest else (k0, v0) :: dictInsert rest k v

/-- Python `d.update(u)`: fold single-key assignment over `u` in order. -/
def dictUpdate (d : Dict) (u : Dict) : Dict :=
  u.foldl (fun acc kv => dictInsert acc kv.1 kv.2) d

/-- Python `d.get(k)`: the value at the first (unique) occurrence of `k`. -/
def dictGet (d : Dict) (k : String) : Option PValue :=
  (d.find? (fun p => p.1 == k)).map Prod.snd

/-- Exceptions that the modelled code can raise or observe.  `request tag`
is a `requests.exceptions.RequestException` (the `tag` identifies the
concrete instance), `decode` a response-body JSON decode error raised by
`.json()`, `softTimeLimit` is celery's `SoftTimeLimitExceeded`, `typeErr`
a `TypeError` (e.g. `list += None`), and `other tag` any other exception. -/
inductive Exc : Type
  | request (tag : Nat)
  | decode
  | softTimeLimit
  | typeErr
  | other (tag : Nat)
deriving DecidableEq, Repr

/-- Whether `except requests.exceptions.RequestException` catches `e`. -/
def Exc.isRequestException : Exc → Bool
  | .request _ => true
  | _ => false

/-- The part of a parsed response body the client reads: `results` is
`some rs` when the JSON object has a `results` key (with list value `rs`)
and `none` when the key is absent; `next` is the truthiness of the
body's `next` field. -/
structure Body (α : Type) : Type where
  results : Option (List α)
  next : Bool
deriving DecidableEq, Repr

/-- Python `response.get('results', [])`. -/
def Body.getResultsD {α : Type} (b : Body α) : List α :=
  b.results.getD []

/-- Outcome of one physical `self.client.post(...)` call: either the call
raises an exception, or it yields a response with a status code and a body
whose later `.json()` parse yields `some b` or raises a decode error
(`none`). -/
inductive PostOutcome (α : Type) : Type
  | exn (e : Exc)
  | resp (status : Nat) (body : Option (Body α))
deriving DecidableEq, Repr

/-- Configurable client settings `MAX_RETRIES` and `BACKOFF_FACTOR`
(`ENTERPRISE_DISCOVERY_CLIENT_MAX_RETRIES` / `..._BACKOFF_FACTOR`). -/
structure Config : Type where
  MAX_RETRIES : Nat
  BACKOFF_FACTOR : Nat
deriving DecidableEq, Repr

/-- The settings defaults: `MAX_RETRIES = 4`, `BACKOFF_FACTOR = 2`. -/
def defaultConfig : Config := ⟨4, 2⟩

/-- `_calculate_backoff`: seconds to sleep after `attempt_count` failed
attempts, `BACKOFF_FACTOR * (2 ** (attempt_count - 1))`. -/
def calculate_backoff (cfg : Config) (attempt_count : Nat) : Nat :=
  cfg.BACKOFF_FACTOR * 2 ^ (attempt_count - 1)

/-- Observable outcome of `_retrieve_metadata_for_content_filter`: the
returned parsed body or the raised exception, the number of POST calls
issued, and the list of backoff sleeps performed, in order. -/
structure RetrieveOut (α : Type) : Type where
  out : Except Exc (Body α)
  posts : Nat
  sleeps : List Nat
deriving Repr

/-- The `while True` retry loop of `_retrieve_metadata_for_content_filter`,
entered having already made `attempts` attempts, the next POST being the
`callIdx`-th physical request overall.  Mirrors the source: a transport
`RequestException` or a status `>= 400` with `attempts <= MAX_RETRIES`
left sleeps the backoff and retries; otherwise a pending exception is
re-raised, or the loop breaks and `response.json()` is returned (which
itself may raise a decode error). -/
def retrieveLoop {α : Type} (cfg : Config) (post : Nat → PostOutcome α)
    (callIdx attempts : Nat) : RetrieveOut α :=
  match post callIdx with
  | .exn e =>
    if h : e.isRequestException = true ∧ attempts + 1 ≤ cfg.MAX_RETRIES then
      let r := retrieveLoop cfg post (callIdx + 1) (attempts + 1)
      ⟨r.out, r.posts + 1, calculate_backoff cfg (attempts + 1) :: r.sleeps⟩
    else
      ⟨Except.error e, 1, []⟩
  | .resp status body =>
    if h : 400 ≤ status ∧ attempts + 1 ≤ cfg.MAX_RETRIES then
      let r := retrieveLoop cfg post (callIdx + 1) (attempts + 1)
      ⟨r.out, r.posts + 1, calculate_backoff cfg (attempts + 1) :: r.sleeps⟩
    else
      match body with
      | some b => ⟨Except.ok b, 1, []⟩
      | none => ⟨Except.error Exc.decode, 1, []⟩
termination_by cfg.MAX_RETRIES - attempts
decreasing_by
  · omega
  · omega

/-- `_retrieve_metadata_for_content_filter`, issuing its first POST as the
`callIdx`-th physical request (the content filter and request params are
fixed for the duration of the call and folded into the oracle). -/
def retrieve_metadata_for_content_filter {α : Type} (cfg : Config)
    (post : Nat → PostOutcome α) (callIdx : Nat) : RetrieveOut α :=
  retrieveLoop cfg post callIdx 0

/-- The backoff sleeps performed by `n` consecutive failed retries after
`attempts` attempts have already been made. -/
def backoffSleeps (cfg : Config) (attempts : Nat) : Nat → List Nat
  | 0 => []
  | n + 1 =>
    calculate_backoff cfg (attempts + 1) :: backoffSleeps cfg (attempts + 1) n

/-- The fixed `request_params` dict built by `get_metadata_by_query`. -/
def searchRequestParams : Dict :=
  [("exclude_expired_course_run", PValue.vb true),
   ("page_size", PValue.vn 100),
   ("ordering", PValue.vs "aggregation_key,start"),
   ("include_learner_pathways", PValue.vb true)]

/-- Observable outcome of `get_metadata_by_query`: the returned result list
or the re-raised exception, the number of POST calls issued, the backoff
sleeps performed, and the `request_params` dict sent with each page's
request, in page order. -/
structure MetaOut (α : Type) : Type where
  out : Except Exc (List α)
  posts : Nat
  sleeps : List Nat
  pageParams : List Dict
deriving Repr

/-- The `while response.get('next')` loop of `get_metadata_by_query`:
`prev` is the last parsed response, `acc` the results accumulated so far,
`page` the current page counter, `params` the (mutated-in-place)
`request_params` dict, `callIdx` the index of the next physical POST.
`fuel` bounds the number of loop iterations; `none` means the bound was
too small for this traversal. -/
def metadataLoop {α : Type} (cfg : Config) (post : Nat → PostOutcome α)
    (callIdx page : Nat) (params : Dict) (prev : Body α) (acc : List α)
    (fuel : Nat) : Option (MetaOut α) :=
  if prev.next then
    match fuel with
    | 0 => none
    | fuel + 1 =>
      let page2 := page + 1
      let params2 := dictUpdate params [("page", PValue.vn page2)]
      let r := retrieve_metadata_for_content_filter cfg post callIdx
      match r.out with
      | Except.error e => some ⟨Except.error e, r.posts, r.sleeps, [params2]⟩
      | Except.ok b =>
        match metadataLoop cfg post (callIdx + r.posts) page2 params2 b
            (acc ++ b.getResultsD) fuel with
        | none => none
        | some m =>
          some ⟨m.out, r.posts + m.posts, r.sleeps ++ m.sleeps,
                params2 :: m.pageParams⟩
  else
    some ⟨Except.ok acc, 0, [], []⟩

/-- `get_metadata_by_query`: fetch page 1 with the fixed search params, then
traverse while `next` is truthy, concatenating `response.get('results', [])`;
any exception is logged and re-raised (`raise exc`). -/
def get_metadata_by_query {α : Type} (cfg : Config)
    (post : Nat → PostOutcome α) (fuel : Nat) : Option (MetaOut α) :=
  let params := searchRequestParams
  let r := retrieve_metadata_for_content_filter cfg post 0
  match r.out with
  | Except.error e => some ⟨Except.error e, r.posts, r.sleeps, [params]⟩
  | Except.ok b =>
    match metadataLoop cfg post r.posts 1 params b b.getResultsD fuel with
    | none => none
    | some m =>
      some ⟨m.out, r.posts + m.posts, r.sleeps ++ m.sleeps,
            params :: m.pageParams⟩

/-- Outcome of one physical GET (`self.client.get(...).json()`): the parsed
body, or the exception raised by either the transport or the `.json()`
parse (or a cooperative `SoftTimeLimitExceeded` delivered during the call). -/
abbrev GetOutcome (α : Type) : Type := Except Exc (Body α)

/-- Observable outcome of `get_courses` / `get_programs`: the returned list
(these operations never raise), the number of GET calls issued, the
`offset` argument passed to each retrieval, and the `request_params` dict
sent with each call, in call order. -/
structure ListOut (α : Type) : Type where
  result : List α
  gets : Nat
  offsets : List Nat
  callParams : List Dict
deriving Repr

/-- The `while response.get('next')` loop shared by `get_courses` and
`get_programs`: advance `offset` by the constant `off`
(`DISCOVERY_OFFSET_SIZE`), store it in `params`, fetch, and append
`response.get('results', [])`; any exception (including
`SoftTimeLimitExceeded`) is caught and the accumulated list returned.
`fuel` bounds the number of loop iterations. -/
def listLoop {α : Type} (get : Nat → GetOutcome α) (off : Nat)
    (callIdx offset : Nat) (params : Dict) (prev : Body α) (acc : List α)
    (fuel : Nat) : Option (ListOut α) :=
  if prev.next then
    match fuel with
    | 0 => none
    | fuel + 1 =>
      let offset2 := offset + off
      let params2 := dictUpdate params [("offset", PValue.vn offset2)]
      match get callIdx with
      | Except.error _ => some ⟨acc, 1, [offset2], [params2]⟩
      | Except.ok b =>
        match listLoop get off (callIdx + 1) offset2 params2 b
            (acc ++ b.getResultsD) fuel with
        | none => none
        | some m =>
          some ⟨m.result, 1 + m.gets, offset2 :: m.offsets,
                params2 :: m.callParams⟩
  else
    some ⟨acc, 0, [], []⟩

/-- The offset-based list fetch shared by `get_courses` and `get_programs`,
abstracted over the base `request_params` dict.  The first call uses
offset `0` and sends no `offset` parameter; the first page's results are
read with `response.get('results')` (no default), so a missing `results`
key raises a `TypeError` that the broad handler swallows, returning `[]`.
All exceptions are caught and the accumulated list is returned. -/
def listFetch {α : Type} (base : Dict) (get : Nat → GetOutcome α)
    (off : Nat) (query_params : Option Dict) (fuel : Nat) :
    Option (ListOut α) :=
  let params := dictUpdate base (query_params.getD [])
  match get 0 with
  | Except.error _ => some ⟨[], 1, [0], [params]⟩
  | Except.ok b =>
    match b.results with
    | none => some ⟨[], 1, [0], [params]⟩
    | some rs =>
      match listLoop get off 1 0 params b rs fuel with
      | none => none
      | some m =>
        some ⟨m.result, 1 + m.gets, 0 :: m.offsets, params :: m.callParams⟩

/-- The base `request_params` dict of `get_courses`. -/
def coursesBaseParams (off : Nat) : Dict :=
  [("ordering", PValue.vs "key"), ("limit", PValue.vn off)]

/-- The base `request_params` dict of `get_programs`. -/
def programsBaseParams (off : Nat) : Dict :=
  [("ordering", PValue.vs "key"), ("limit", PValue.vn off),
   ("extended", PValue.vs "True")]

/-- `get_courses` over the GET oracle, with `off = DISCOVERY_OFFSET_SIZE`. -/
def get_courses {α : Type} (get : Nat → GetOutcome α) (off : Nat)
    (query_params : Option Dict) (fuel : Nat) : Option (ListOut α) :=
  listFetch (coursesBaseParams off) get off query_params fuel

/-- `get_programs` over the GET oracle, with `off = DISCOVERY_OFFSET_SIZE`. -/
def get_programs {α : Type} (get : Nat → GetOutcome α) (off : Nat)
    (query_params : Option Dict) (fuel : Nat) : Option (ListOut α) :=
  listFetch (programsBaseParams off) get off query_params fuel

/-- A POST oracle that serves the bodies `bs` one per call (status 200,
parse succeeding) and delegates later calls to `rest`. -/
def postServerOfBodies {α : Type} (bs : List (Body α))
    (rest : Nat → PostOutcome α) : Nat → PostOutcome α :=
  fun i =>
    match bs[i]? with
    | some b => PostOutcome.resp 200 (some b)
    | none => rest (i - bs.length)

/-- A GET oracle that serves the bodies `bs` one per call and delegates
later calls to `rest`. -/
def getServerOfBodies {α : Type} (bs : List (Body α))
    (rest : Nat → GetOutcome α) : Nat → GetOutcome α :=
  fun i =>
    match bs[i]? with
    | some b => Except.ok b
    | none => rest (i - bs.length)

/-- Parameter dicts sent by successive search page requests: starting from
`params` at page counter `page`, each iteration increments the counter and
stores it under `"page"`. -/
def metaTrace (params : Dict) (page : Nat) : Nat → List Dict
  | 0 => []
  | n + 1 =>
    let params2 := dictUpdate params [("page", PValue.vn (page + 1))]
    params2 :: metaTrace params2 (page + 1) n

/-- Parameter dicts sent by successive list-loop requests: each iteration
advances the offset by `off` and stores it under `"offset"`. -/
def listTrace (off : Nat) (params : Dict) (offset : Nat) : Nat → List Dict
  | 0 => []
  | n + 1 =>
    let params2 := dictUpdate params [("offset", PValue.vn (offset + off))]
    params2 :: listTrace off params2 (offset + off) n

/-- Offsets passed to successive list-loop requests, starting after
`offset` and advancing by `off` each iteration. -/
def offsetsFrom (off offset : Nat) : Nat → List Nat
  | 0 => []
  | n + 1 => (offset + off) :: offsetsFrom off (offset + off) n

theorem dictGet_nil (k : String) : dictGet [] k = none := rfl

theorem dictGet_cons (k0 k : String) (v0 : PValue) (d : Dict) :
    dictGet ((k0, v0) :: d) k =
      if k0 = k then some v0 else dictGet d k := by
  by_cases h : k0 = k
  · subst h
    simp [dictGet, List.find?]
  · have hb : (k0 == k) = false := beq_eq_false_iff_ne.mpr h
    simp [dictGet, List.find?, hb, h]

theorem dictGet_dictInsert (d : Dict) (k k2 : String) (v : PValue) :
    dictGet (dictInsert d k v) k2 =
      if k = k2 then some v else dictGet d k2 := by
  induction d with
  | nil =>
    by_cases h : k = k2 <;> simp [dictInsert, dictGet_cons, dictGet_nil, h]
  | cons p rest ih =>
    obtain ⟨k0, v0⟩ := p
    by_cases h0 : k0 = k
    · subst h0
      simp only [dictInsert, if_pos rfl]
      by_cases h : k0 = k2 <;> simp [dictGet_cons, h]
    · simp only [dictInsert, if_neg h0]
      rw [dictGet_cons, ih, dictGet_cons]
      by_cases h : k0 = k2
      · by_cases h2 : k = k2
        · exact absurd (h.trans h2.symm) h0
        · simp [h, h2]
      · by_cases h2 : k = k2 <;> simp [h, h2]

theorem dictUpdate_nil (d : Dict) : dictUpdate d [] = d := rfl

theorem dictUpdate_cons (d : Dict) (k : String) (v : PValue) (u : Dict) :
    dictUpdate d ((k, v) :: u) = dictUpdate (dictInsert d k v) u := rfl

theorem dictUpdate_single (d : Dict) (k : String) (v : PValue) :
    dictUpdate d [(k, v)] = dictInsert d k v := rfl

theorem dictGet_eq_none_iff (u : Dict) (k : String) :
    dictGet u k = none ↔ ∀ p ∈ u, p.1 ≠ k := by
  simp [dictGet, List.find?_eq_none]

theorem dictGet_dictUpdate_of_none (d u : Dict) (k : String)
    (h : dictGet u k = none) :
    dictGet (dictUpdate d u) k = dictGet d k := by
  induction u generalizing d with
  | nil => rfl
  | cons p rest ih =>
    obtain ⟨k0, v0⟩ := p
    rw [dictGet_eq_none_iff] at h
    have h0 : k0 ≠ k := h (k0, v0) (List.mem_cons_self _ _)
    have hrest : dictGet rest k = none := by
      rw [dictGet_eq_none_iff]
      intro p hp
      exact h p (List.mem_cons_of_mem _ hp)
    rw [dictUpdate_cons, ih _ hrest, dictGet_dictInsert]
    simp [h0]

theorem dictGet_dictUpdate_of_some (d u : Dict) (k : String) (v : PValue)
    (hnd : (u.map Prod.fst).Nodup) (h : dictGet u k = some v) :
    dictGet (dictUpdate d u) k = some v := by
  induction u generalizing d with
  | nil => simp [dictGet_nil] at h
  | cons p rest ih =>
    obtain ⟨k0, v0⟩ := p
    simp only [List.map_cons, List.nodup_cons] at hnd
    rw [dictGet_cons] at h
    by_cases h0 : k0 = k
    · subst h0
      rw [if_pos rfl] at h
      injection h with h
      subst h
      have hrest : dictGet rest k0 = none := by
        rw [dictGet_eq_none_iff]
        intro p hp hk
        exact hnd.1 (hk ▸ List.mem_map_of_mem Prod.fst hp)
      rw [dictUpdate_cons, dictGet_dictUpdate_of_none _ _ _ hrest,
        dictGet_dictInsert]
      simp
    · rw [if_neg h0] at h
      rw [dictUpdate_cons]
      exact ih _ hnd.2 h

/-- Outcome of the final `return response.json()`: the parsed body, or the
decode error it raises. -/
def parseOut {α : Type} : Option (Body α) → Except Exc (Body α)
  | some b => Except.ok b
  | none => Except.error Exc.decode

theorem retrieveLoop_exn_step {α : Type} (cfg : Config)
    (post : Nat → PostOutcome α) (c a : Nat) (e : Exc)
    (hpost : post c = PostOutcome.exn e) :
    retrieveLoop cfg post c a =
      if e.isRequestException = true ∧ a + 1 ≤ cfg.MAX_RETRIES then
        let r := retrieveLoop cfg post (c + 1) (a + 1)
        ⟨r.out, r.posts + 1, calculate_backoff cfg (a + 1) :: r.sleeps⟩
      else ⟨Except.error e, 1, []⟩ := by
  rw [retrieveLoop, hpost]
  rfl

theorem retrieveLoop_resp_step {α : Type} (cfg : Config)
    (post : Nat → PostOutcome α) (c a s : Nat) (body : Option (Body α))
    (hpost : post c = PostOutcome.resp s body) :
    retrieveLoop cfg post c a =
      if 400 ≤ s ∧ a + 1 ≤ cfg.MAX_RETRIES then
        let r := retrieveLoop cfg post (c + 1) (a + 1)
        ⟨r.out, r.posts + 1, calculate_backoff cfg (a + 1) :: r.sleeps⟩
      else ⟨parseOut body, 1, []⟩ := by
  rw [retrieveLoop, hpost]
  cases body <;> rfl

theorem retrieveLoop_ok {α : Type} (cfg : Config) (post : Nat → PostOutcome α)
    (c a s : Nat) (b : Body α) (hs : s < 400)
    (hpost : post c = PostOutcome.resp s (some b)) :
    retrieveLoop cfg post c a = ⟨Except.ok b, 1, []⟩ := by
  rw [retrieveLoop_resp_step cfg post c a s (some b) hpost,
    if_neg (fun hc => absurd hc.1 (by omega))]
  rfl

theorem retrieveLoop_decode {α : Type} (cfg : Config)
    (post : Nat → PostOutcome α) (c a s : Nat) (hs : s < 400)
    (hpost : post c = PostOutcome.resp s none) :
    retrieveLoop cfg post c a = ⟨Except.error Exc.decode, 1, []⟩ := by
  rw [retrieveLoop_resp_step cfg post c a s none hpost,
    if_neg (fun hc => absurd hc.1 (by omega))]
  rfl

theorem retrieveLoop_allExn {α : Type} (cfg : Config)
    (post : Nat → PostOutcome α) (e : Exc)
    (he : e.isRequestException = true) :
    ∀ n c a, a ≤ cfg.MAX_RETRIES → cfg.MAX_RETRIES - a = n →
    (∀ i, c ≤ i → post i = PostOutcome.exn e) →
    retrieveLoop cfg post c a =
      ⟨Except.error e, cfg.MAX_RETRIES + 1 - a,
       backoffSleeps cfg a (cfg.MAX_RETRIES - a)⟩ := by
  intro n
  induction n with
  | zero =>
    intro c a ha hn hfail
    rw [retrieveLoop_exn_step cfg post c a e (hfail c le_rfl),
      if_neg (fun hc => absurd hc.2 (by omega)), hn]
    have h1 : cfg.MAX_RETRIES + 1 - a = 1 := by omega
    rw [h1, backoffSleeps]
  | succ n ih =>
    intro c a ha hn hfail
    rw [retrieveLoop_exn_step cfg post c a e (hfail c le_rfl),
      if_pos ⟨he, by omega⟩,
      ih (c + 1) (a + 1) (by omega) (by omega)
        (fun i hi => hfail i (by omega))]
    have h1 : cfg.MAX_RETRIES - (a + 1) = n := by omega
    have h2 : cfg.MAX_RETRIES + 1 - (a + 1) + 1 = cfg.MAX_RETRIES + 1 - a := by
      omega
    rw [hn, h1, backoffSleeps]
    simp only [h2]

theorem retrieveLoop_allBad {α : Type} (cfg : Config)
    (post : Nat → PostOutcome α) (S : Nat → Nat) (B : Nat → Option (Body α))
    (hS : ∀ i, 400 ≤ S i) :
    ∀ n c a, a ≤ cfg.MAX_RETRIES → cfg.MAX_RETRIES - a = n →
    (∀ i, c ≤ i → post i = PostOutcome.resp (S i) (B i)) →
    retrieveLoop cfg post c a =
      ⟨parseOut (B (c + (cfg.MAX_RETRIES - a))),
       cfg.MAX_RETRIES + 1 - a, backoffSleeps cfg a (cfg.MAX_RETRIES - a)⟩ := by
  intro n
  induction n with
  | zero =>
    intro c a ha hn hfail
    rw [retrieveLoop_resp_step cfg post c a (S c) (B c) (hfail c le_rfl),
      if_neg (fun hc => absurd hc.2 (by omega)), hn]
    have h1 : cfg.MAX_RETRIES + 1 - a = 1 := by omega
    have h2 : c + 0 = c := by omega
    rw [h1, h2, backoffSleeps]
  | succ n ih =>
    intro c a ha hn hfail
    rw [retrieveLoop_resp_step cfg post c a (S c) (B c) (hfail c le_rfl),
      if_pos ⟨hS c, by omega⟩,
      ih (c + 1) (a + 1) (by omega) (by omega)
        (fun i hi => hfail i (by omega))]
    have h1 : cfg.MAX_RETRIES - (a + 1) = n := by omega
    have h2 : cfg.MAX_RETRIES + 1 - (a + 1) + 1 = cfg.MAX_RETRIES + 1 - a := by
      omega
    have h3 : c + 1 + (cfg.MAX_RETRIES - (a + 1)) =
        c + (cfg.MAX_RETRIES - a) := by omega
    rw [hn, h1] at h3 ⊢
    rw [h3, backoffSleeps]
    simp only [h2]

theorem metadataLoop_pages {α : Type} (cfg : Config)
    (post : Nat → PostOutcome α) (bs : List (Body α)) :
    ∀ k page params (prev : Body α) acc fuel,
    bs.length ≤ fuel →
    prev.next = decide (0 < bs.length) →
    (∀ i (h : i < bs.length),
      post (k + i) = PostOutcome.resp 200 (some (bs.get ⟨i, h⟩))) →
    (∀ i (h : i < bs.length),
      (bs.get ⟨i, h⟩).next = decide (i + 1 < bs.length)) →
    metadataLoop cfg post k page params prev acc fuel =
      some ⟨Except.ok (acc ++ (bs.map Body.getResultsD).flatten), bs.length,
            [], metaTrace params page bs.length⟩ := by
  induction bs with
  | nil =>
    intro k page params prev acc fuel _ hprev _ _
    have hprev2 : prev.next = false := by simpa using hprev
    rw [metadataLoop.eq_def]
    simp [hprev2, metaTrace]
  | cons b rest ih =>
    intro k page params prev acc fuel hfuel hprev hserve hnext
    have hprev2 : prev.next = true := by simpa using hprev
    simp only [List.length_cons] at hfuel
    obtain ⟨f, rfl⟩ : ∃ f, fuel = f + 1 := ⟨fuel - 1, by omega⟩
    have h0 : post k = PostOutcome.resp 200 (some b) := by
      have := hserve 0 (by simp)
      simpa using this
    rw [metadataLoop.eq_def]
    simp only [hprev2, if_true, retrieve_metadata_for_content_filter,
      retrieveLoop_ok cfg post k 0 200 b (by norm_num) h0]
    rw [ih (k + 1) (page + 1)
      (dictUpdate params [("page", PValue.vn (page + 1))]) b
      (acc ++ b.getResultsD) f (by omega)
      (by
        have := hnext 0 (by simp)
        simpa using this)
      (by
        intro i h
        have := hserve (i + 1) (by simpa using h)
        rw [show k + (i + 1) = k + 1 + i by omega] at this
        simpa using this)
      (by
        intro i h
        have := hnext (i + 1) (by simpa using h)
        simpa using this)]
    simp [metaTrace, Nat.add_comm]

theorem metadataLoop_pagesThenError {α : Type} (cfg : Config)
    (post : Nat → PostOutcome α) (bs : List (Body α)) :
    ∀ k page params (prev : Body α) acc fuel e,
    bs.length < fuel →
    prev.next = true →
    (∀ i (h : i < bs.length),
      post (k + i) = PostOutcome.resp 200 (some (bs.get ⟨i, h⟩))) →
    (∀ i (h : i < bs.length), (bs.get ⟨i, h⟩).next = true) →
    (retrieveLoop cfg post (k + bs.length) 0).out = Except.error e →
    metadataLoop cfg post k page params prev acc fuel =
      some ⟨Except.error e,
            bs.length + (retrieveLoop cfg post (k + bs.length) 0).posts,
            (retrieveLoop cfg post (k + bs.length) 0).sleeps,
            metaTrace params page (bs.length + 1)⟩ := by
  induction bs with
  | nil =>
    intro k page params prev acc fuel e hfuel hprev hserve hnext hafter
    simp only [List.length_nil] at hfuel
    simp only [List.length_nil, Nat.add_zero] at hafter ⊢
    obtain ⟨f, rfl⟩ : ∃ f, fuel = f + 1 := ⟨fuel - 1, by omega⟩
    rw [metadataLoop.eq_def]
    simp only [hprev, if_true, retrieve_metadata_for_content_filter]
    rw [show retrieveLoop cfg post k 0 =
      ⟨Except.error e, (retrieveLoop cfg post k 0).posts,
       (retrieveLoop cfg post k 0).sleeps⟩ from ?_]
    · simp [metaTrace]
    · cases hr : retrieveLoop cfg post k 0 with
      | mk o p sl =>
        rw [hr] at hafter
        simp only at hafter
        rw [hafter]
  | cons b rest ih =>
    intro k page params prev acc fuel e hfuel hprev hserve hnext hafter
    simp only [List.length_cons] at hfuel
    simp only [List.length_cons] at hafter ⊢
    obtain ⟨f, rfl⟩ : ∃ f, fuel = f + 1 := ⟨fuel - 1, by omega⟩
    have h0 : post k = PostOutcome.resp 200 (some b) := by
      have := hserve 0 (by simp)
      simpa using this
    rw [metadataLoop.eq_def]
    simp only [hprev, if_true, retrieve_metadata_for_content_filter,
      retrieveLoop_ok cfg post k 0 200 b (by norm_num) h0]
    rw [ih (k + 1) (page + 1)
      (dictUpdate params [("page", PValue.vn (page + 1))]) b
      (acc ++ b.getResultsD) f e (by omega)
      (by
        have := hnext 0 (by simp)
        simpa using this)
      (by
        intro i h
        have := hserve (i + 1) (by simpa using h)
        rw [show k + (i + 1) = k + 1 + i by omega] at this
        simpa using this)
      (by
        intro i h
        have := hnext (i + 1) (by simpa using h)
        simpa using this)
      (by
        rw [show k + 1 + rest.length = k + (rest.length + 1) by omega]
        exact hafter)]
    rw [show k + 1 + rest.length = k + (rest.length + 1) by omega]
    simp [metaTrace]
    omega

theorem listLoop_pages {α : Type} (get : Nat → GetOutcome α) (off : Nat)
    (bs : List (Body α)) :
    ∀ k offset params (prev : Body α) acc fuel,
    bs.length ≤ fuel →
    prev.next = decide (0 < bs.length) →
    (∀ i (h : i < bs.length), get (k + i) = Except.ok (bs.get ⟨i, h⟩)) →
    (∀ i (h : i < bs.length),
      (bs.get ⟨i, h⟩).next = decide (i + 1 < bs.length)) →
    listLoop get off k offset params prev acc fuel =
      some ⟨acc ++ (bs.map Body.getResultsD).flatten, bs.length,
            offsetsFrom off offset bs.length,
            listTrace off params offset bs.length⟩ := by
  induction bs with
  | nil =>
    intro k offset params prev acc fuel _ hprev _ _
    have hprev2 : prev.next = false := by simpa using hprev
    rw [listLoop.eq_def]
    simp [hprev2, offsetsFrom, listTrace]
  | cons b rest ih =>
    intro k offset params prev acc fuel hfuel hprev hserve hnext
    have hprev2 : prev.next = true := by simpa using hprev
    simp only [List.length_cons] at hfuel
    obtain ⟨f, rfl⟩ : ∃ f, fuel = f + 1 := ⟨fuel - 1, by omega⟩
    have h0 : get k = Except.ok b := by
      have := hserve 0 (by simp)
      simpa using this
    rw [listLoop.eq_def]
    simp only [hprev2, if_true, h0]
    rw [ih (k + 1) (offset + off)
      (dictUpdate params [("offset", PValue.vn (offset + off))]) b
      (acc ++ b.getResultsD) f (by omega)
      (by
        have := hnext 0 (by simp)
        simpa using this)
      (by
        intro i h
        have := hserve (i + 1) (by simpa using h)
        rw [show k + (i + 1) = k + 1 + i by omega] at this
        simpa using this)
      (by
        intro i h
        have := hnext (i + 1) (by simpa using h)
        simpa using this)]
    simp [offsetsFrom, listTrace, Nat.add_comm]

theorem listLoop_pagesThenError {α : Type} (get : Nat → GetOutcome α)
    (off : Nat) (bs : List (Body α)) :
    ∀ k offset params (prev : Body α) acc fuel e,
    bs.length < fuel →
    prev.next = true →
    (∀ i (h : i < bs.length), get (k + i) = Except.ok (bs.get ⟨i, h⟩)) →
    (∀ i (h : i < bs.length), (bs.get ⟨i, h⟩).next = true) →
    get (k + bs.length) = Except.error e →
    listLoop get off k offset params prev acc fuel =
      some ⟨acc ++ (bs.map Body.getResultsD).flatten, bs.length + 1,
            offsetsFrom off offset (bs.length + 1),
            listTrace off params offset (bs.length + 1)⟩ := by
  induction bs with
  | nil =>
    intro k offset params prev acc fuel e hfuel hprev hserve hnext hafter
    simp only [List.length_nil] at hfuel
    simp only [List.length_nil, Nat.add_zero] at hafter
    obtain ⟨f, rfl⟩ : ∃ f, fuel = f + 1 := ⟨fuel - 1, by omega⟩
    rw [listLoop.eq_def]
    simp [hprev, hafter, offsetsFrom, listTrace]
  | cons b rest ih =>
    intro k offset params prev acc fuel e hfuel hprev hserve hnext hafter
    simp only [List.length_cons] at hfuel
    simp only [List.length_cons] at hafter ⊢
    obtain ⟨f, rfl⟩ : ∃ f, fuel = f + 1 := ⟨fuel - 1, by omega⟩
    have h0 : get k = Except.ok b := by
      have := hserve 0 (by simp)
      simpa using this
    rw [listLoop.eq_def]
    simp only [hprev, if_true, h0]
    rw [ih (k + 1) (offset + off)
      (dictUpdate params [("offset", PValue.vn (offset + off))]) b
      (acc ++ b.getResultsD) f e (by omega)
      (by
        have := hnext 0 (by simp)
        simpa using this)
      (by
        intro i h
        have := hserve (i + 1) (by simpa using h)
        rw [show k + (i + 1) = k + 1 + i by omega] at this
        simpa using this)
      (by
        intro i h
        have := hnext (i + 1) (by simpa using h)
        simpa using this)
      (by
        rw [show k + 1 + rest.length = k + (rest.length + 1) by omega]
        exact hafter)]
    simp [offsetsFrom, listTrace, Nat.add_comm]

theorem listLoop_shape {α : Type} (get : Nat → GetOutcome α) (off : Nat) :
    ∀ fuel k offset params (prev : Body α) acc m,
    listLoop get off k offset params prev acc fuel = some m →
    m.offsets = offsetsFrom off offset m.gets ∧
    m.callParams = listTrace off params offset m.gets := by
  intro fuel
  induction fuel with
  | zero =>
    intro k offset params prev acc m h
    rw [listLoop.eq_def] at h
    cases hp : prev.next with
    | true => simp [hp] at h
    | false =>
      simp only [hp] at h
      simp only [Bool.false_eq_true, if_false, Option.some.injEq] at h
      subst h
      exact ⟨rfl, rfl⟩
  | succ f ih =>
    intro k offset params prev acc m h
    rw [listLoop.eq_def] at h
    cases hp : prev.next with
    | false =>
      simp only [hp, Bool.false_eq_true, if_false, Option.some.injEq] at h
      subst h
      exact ⟨rfl, rfl⟩
    | true =>
      simp only [hp, if_true] at h
      cases hg : get k with
      | error e =>
        simp only [hg, Option.some.injEq] at h
        subst h
        exact ⟨rfl, rfl⟩
      | ok b =>
        simp only [hg] at h
        cases hrec : listLoop get off (k + 1) (offset + off)
            (dictUpdate params [("offset", PValue.vn (offset + off))]) b
            (acc ++ b.getResultsD) f with
        | none => simp [hrec] at h
        | some m2 =>
          rw [hrec] at h
          simp only [Option.some.injEq] at h
          subst h
          obtain ⟨ho, hc⟩ := ih (k + 1) (offset + off)
            (dictUpdate params [("offset", PValue.vn (offset + off))]) b
            (acc ++ b.getResultsD) m2 hrec
          constructor
          · show (offset + off) :: m2.offsets =
              offsetsFrom off offset (1 + m2.gets)
            rw [Nat.add_comm 1 m2.gets, offsetsFrom, ho]
          · show dictUpdate params [("offset", PValue.vn (offset + off))] ::
              m2.callParams = listTrace off params offset (1 + m2.gets)
            rw [Nat.add_comm 1 m2.gets, listTrace, hc]

theorem metadataLoop_shape {α : Type} (cfg : Config)
    (post : Nat → PostOutcome α) :
    ∀ fuel k page params (prev : Body α) acc m,
    metadataLoop cfg post k page params prev acc fuel = some m →
    ∃ n, m.pageParams = metaTrace params page n := by
  intro fuel
  induction fuel with
  | zero =>
    intro k page params prev acc m h
    rw [metadataLoop.eq_def] at h
    cases hp : prev.next with
    | true => simp [hp] at h
    | false =>
      simp only [hp, Bool.false_eq_true, if_false, Option.some.injEq] at h
      subst h
      exact ⟨0, rfl⟩
  | succ f ih =>
    intro k page params prev acc m h
    rw [metadataLoop.eq_def] at h
    cases hp : prev.next with
    | false =>
      simp only [hp, Bool.false_eq_true, if_false, Option.some.injEq] at h
      subst h
      exact ⟨0, rfl⟩
    | true =>
      simp only [hp, if_true] at h
      cases hr : (retrieve_metadata_for_content_filter cfg post k).out with
      | error e =>
        simp only [hr, Option.some.injEq] at h
        subst h
        exact ⟨1, rfl⟩
      | ok b =>
        simp only [hr] at h
        cases hrec : metadataLoop cfg post
            (k + (retrieve_metadata_for_content_filter cfg post k).posts)
            (page + 1) (dictUpdate params [("page", PValue.vn (page + 1))]) b
            (acc ++ b.getResultsD) f with
        | none => simp [hrec] at h
        | some m2 =>
          rw [hrec] at h
          simp only [Option.some.injEq] at h
          subst h
          obtain ⟨n, hn⟩ := ih _ (page + 1)
            (dictUpdate params [("page", PValue.vn (page + 1))]) b
            (acc ++ b.getResultsD) m2 hrec
          exact ⟨n + 1, by rw [metaTrace, hn]⟩

theorem metaTrace_mem_pres (kk : String) (hkk : kk ≠ "page") :
    ∀ n params page d, d ∈ metaTrace params page n →
    dictGet d kk = dictGet params kk := by
  intro n
  induction n with
  | zero =>
    intro params page d hd
    simp [metaTrace] at hd
  | succ n ih =>
    intro params page d hd
    have hins : dictGet
        (dictUpdate params [("page", PValue.vn (page + 1))]) kk =
        dictGet params kk := by
      rw [dictUpdate_single, dictGet_dictInsert,
        if_neg (fun hc => hkk hc.symm)]
    rw [metaTrace] at hd
    rcases List.mem_cons.mp hd with h | h
    · rw [h, hins]
    · rw [ih _ _ _ h, hins]

theorem listTrace_mem_pres (off : Nat) (kk : String) (hkk : kk ≠ "offset") :
    ∀ n params offset d, d ∈ listTrace off params offset n →
    dictGet d kk = dictGet params kk := by
  intro n
  induction n with
  | zero =>
    intro params offset d hd
    simp [listTrace] at hd
  | succ n ih =>
    intro params offset d hd
    have hins : dictGet
        (dictUpdate params [("offset", PValue.vn (offset + off))]) kk =
        dictGet params kk := by
      rw [dictUpdate_single, dictGet_dictInsert,
        if_neg (fun hc => hkk hc.symm)]
    rw [listTrace] at hd
    rcases List.mem_cons.mp hd with h | h
    · rw [h, hins]
    · rw [ih _ _ _ h, hins]

theorem offsetsFrom_eq_range (off : Nat) :
    ∀ n offset, offsetsFrom off offset n =
      (List.range n).map (fun i => offset + (i + 1) * off) := by
  intro n
  induction n with
  | zero => intro offset; rfl
  | succ n ih =>
    intro offset
    rw [offsetsFrom, ih, List.range_succ_eq_map]
    simp only [List.map_cons, List.map_map]
    refine List.cons_eq_cons.mpr ⟨by ring, ?_⟩
    refine List.map_congr_left ?_
    intro a _
    simp only [Function.comp, Nat.succ_eq_add_one]
    ring

theorem listTrace_getElem_offset (off : Nat) :
    ∀ n params offset i, i < n →
    ∃ d, (listTrace off params offset n)[i]? = some d ∧
      dictGet d "offset" = some (PValue.vn (offset + (i + 1) * off)) := by
  intro n
  induction n with
  | zero => intro params offset i hi; omega
  | succ n ih =>
    intro params offset i hi
    rw [listTrace]
    cases i with
    | zero =>
      refine ⟨dictUpdate params [("offset", PValue.vn (offset + off))],
        by simp, ?_⟩
      rw [dictUpdate_single, dictGet_dictInsert, if_pos rfl]
      have : offset + (0 + 1) * off = offset + off := by ring
      rw [this]
    | succ i =>
      obtain ⟨d, hd, hget⟩ := ih
        (dictUpdate params [("offset", PValue.vn (offset + off))])
        (offset + off) i (by omega)
      refine ⟨d, by simpa using hd, ?_⟩
      rw [hget]
      have : offset + off + (i + 1) * off = offset + (i + 1 + 1) * off := by
        ring
      rw [this]

theorem listTrace_length (off : Nat) :
    ∀ n params offset, (listTrace off params offset n).length = n := by
  intro n
  induction n with
  | zero => intro params offset; rfl
  | succ n ih =>
    intro params offset
    rw [listTrace, List.length_cons, ih]

theorem postServerOfBodies_lt {α : Type} (bs : List (Body α))
    (rest : Nat → PostOutcome α) (i : Nat) (h : i < bs.length) :
    postServerOfBodies bs rest i =
      PostOutcome.resp 200 (some (bs.get ⟨i, h⟩)) := by
  simp [postServerOfBodies, List.getElem?_eq_getElem h,
    List.get_eq_getElem]

theorem postServerOfBodies_ge {α : Type} (bs : List (Body α))
    (rest : Nat → PostOutcome α) (i : Nat) (h : bs.length ≤ i) :
    postServerOfBodies bs rest i = rest (i - bs.length) := by
  simp [postServerOfBodies, List.getElem?_eq_none h]

theorem getServerOfBodies_lt {α : Type} (bs : List (Body α))
    (rest : Nat → GetOutcome α) (i : Nat) (h : i < bs.length) :
    getServerOfBodies bs rest i = Except.ok (bs.get ⟨i, h⟩) := by
  simp [getServerOfBodies, List.getElem?_eq_getElem h, List.get_eq_getElem]

theorem getServerOfBodies_ge {α : Type} (bs : List (Body α))
    (rest : Nat → GetOutcome α) (i : Nat) (h : bs.length ≤ i) :
    getServerOfBodies bs rest i = rest (i - bs.length) := by
  simp [getServerOfBodies, List.getElem?_eq_none h]

theorem get_metadata_by_query_pages {α : Type} (cfg : Config)
    (post : Nat → PostOutcome α) (bs : List (Body α)) (fuel : Nat)
    (hne : bs ≠ []) (hfuel : bs.length ≤ fuel)
    (hserve : ∀ i (h : i < bs.length),
      post i = PostOutcome.resp 200 (some (bs.get ⟨i, h⟩)))
    (hnext : ∀ i (h : i < bs.length),
      (bs.get ⟨i, h⟩).next = decide (i + 1 < bs.length)) :
    get_metadata_by_query cfg post fuel =
      some ⟨Except.ok ((bs.map Body.getResultsD).flatten), bs.length, [],
            searchRequestParams ::
              metaTrace searchRequestParams 1 (bs.length - 1)⟩ := by
  cases bs with
  | nil => exact absurd rfl hne
  | cons b bs' =>
    simp only [List.length_cons] at hfuel ⊢
    have h0 : post 0 = PostOutcome.resp 200 (some b) := by
      have := hserve 0 (by simp)
      simpa using this
    rw [get_metadata_by_query]
    simp only [retrieve_metadata_for_content_filter,
      retrieveLoop_ok cfg post 0 0 200 b (by norm_num) h0]
    rw [metadataLoop_pages cfg post bs' 1 1 searchRequestParams b
      b.getResultsD fuel (by omega)
      (by
        have := hnext 0 (by simp)
        simpa using this)
      (by
        intro i h
        have := hserve (i + 1) (by simpa using h)
        rw [show (1 : Nat) + i = i + 1 by omega]
        simpa using this)
      (by
        intro i h
        have := hnext (i + 1) (by simpa using h)
        simpa using this)]
    simp [Nat.add_comm]

theorem get_metadata_by_query_pagesThenError {α : Type} (cfg : Config)
    (post : Nat → PostOutcome α) (bs : List (Body α)) (fuel : Nat) (e : Exc)
    (hfuel : bs.length < fuel)
    (hserve : ∀ i (h : i < bs.length),
      post i = PostOutcome.resp 200 (some (bs.get ⟨i, h⟩)))
    (hnext : ∀ i (h : i < bs.length), (bs.get ⟨i, h⟩).next = true)
    (hafter : (retrieveLoop cfg post bs.length 0).out = Except.error e) :
    get_metadata_by_query cfg post fuel =
      some ⟨Except.error e,
            bs.length + (retrieveLoop cfg post bs.length 0).posts,
            (retrieveLoop cfg post bs.length 0).sleeps,
            searchRequestParams ::
              metaTrace searchRequestParams 1 bs.length⟩ := by
  cases bs with
  | nil =>
    simp only [List.length_nil] at hafter ⊢
    rw [get_metadata_by_query]
    simp only [retrieve_metadata_for_content_filter]
    rw [show retrieveLoop cfg post 0 0 =
      ⟨Except.error e, (retrieveLoop cfg post 0 0).posts,
       (retrieveLoop cfg post 0 0).sleeps⟩ from ?_]
    · simp [metaTrace]
    · cases hr : retrieveLoop cfg post 0 0 with
      | mk o p sl =>
        rw [hr] at hafter
        simp only at hafter
        rw [hafter]
  | cons b bs' =>
    simp only [List.length_cons] at hfuel hafter ⊢
    have h0 : post 0 = PostOutcome.resp 200 (some b) := by
      have := hserve 0 (by simp)
      simpa using this
    rw [get_metadata_by_query]
    simp only [retrieve_metadata_for_content_filter,
      retrieveLoop_ok cfg post 0 0 200 b (by norm_num) h0]
    rw [metadataLoop_pagesThenError cfg post bs' 1 1 searchRequestParams b
      b.getResultsD fuel e (by omega)
      (by
        have := hnext 0 (by simp)
        simpa using this)
      (by
        intro i h
        have := hserve (i + 1) (by simpa using h)
        rw [show (1 : Nat) + i = i + 1 by omega]
        simpa using this)
      (by
        intro i h
        have := hnext (i + 1) (by simpa using h)
        simpa using this)
      (by
        rw [show 1 + bs'.length = bs'.length + 1 by omega]
        exact hafter)]
    rw [show 1 + bs'.length = bs'.length + 1 by omega]
    simp [metaTrace]
    omega

theorem listFetch_pages {α : Type} (base : Dict) (get : Nat → GetOutcome α)
    (off : Nat) (q : Option Dict) (fuel : Nat) (b : Body α)
    (bs' : List (Body α)) (rs0 : List α)
    (hres0 : b.results = some rs0) (hfuel : bs'.length ≤ fuel)
    (hserve : ∀ i (h : i < (b :: bs').length),
      get i = Except.ok ((b :: bs').get ⟨i, h⟩))
    (hnext : ∀ i (h : i < (b :: bs').length),
      ((b :: bs').get ⟨i, h⟩).next = decide (i + 1 < (b :: bs').length)) :
    listFetch base get off q fuel =
      some ⟨((b :: bs').map Body.getResultsD).flatten, bs'.length + 1,
            0 :: offsetsFrom off 0 bs'.length,
            dictUpdate base (q.getD []) ::
              listTrace off (dictUpdate base (q.getD [])) 0 bs'.length⟩ := by
  have h0 : get 0 = Except.ok b := by
    have := hserve 0 (by simp)
    simpa using this
  rw [listFetch]
  simp only [h0, hres0]
  rw [listLoop_pages get off bs' 1 0 (dictUpdate base (q.getD [])) b rs0
    fuel hfuel
    (by
      have := hnext 0 (by simp)
      simpa using this)
    (by
      intro i h
      have := hserve (i + 1) (by simpa using h)
      rw [show (1 : Nat) + i = i + 1 by omega]
      simpa using this)
    (by
      intro i h
      have := hnext (i + 1) (by simpa using h)
      simpa using this)]
  simp [Body.getResultsD, hres0, Nat.add_comm]

theorem listFetch_pagesThenError {α : Type} (base : Dict)
    (get : Nat → GetOutcome α) (off : Nat) (q : Option Dict) (fuel : Nat)
    (bs : List (Body α)) (e : Exc)
    (hres : ∀ i (h : i < bs.length), ((bs.get ⟨i, h⟩).results).isSome = true)
    (hfuel : bs.length ≤ fuel)
    (hserve : ∀ i (h : i < bs.length), get i = Except.ok (bs.get ⟨i, h⟩))
    (hnext : ∀ i (h : i < bs.length), (bs.get ⟨i, h⟩).next = true)
    (hafter : get bs.length = Except.error e) :
    listFetch base get off q fuel =
      some ⟨(bs.map Body.getResultsD).flatten, bs.length + 1,
            0 :: offsetsFrom off 0 bs.length,
            dictUpdate base (q.getD []) ::
              listTrace off (dictUpdate base (q.getD [])) 0 bs.length⟩ := by
  cases bs with
  | nil =>
    simp only [List.length_nil] at hafter ⊢
    rw [listFetch]
    simp only [hafter]
    simp [offsetsFrom, listTrace]
  | cons b bs' =>
    simp only [List.length_cons] at hfuel hafter ⊢
    have h0 : get 0 = Except.ok b := by
      have := hserve 0 (by simp)
      simpa using this
    obtain ⟨rs0, hres0⟩ : ∃ rs0, b.results = some rs0 := by
      have := hres 0 (by simp)
      simp only [List.get] at this
      exact Option.isSome_iff_exists.mp this
    rw [listFetch]
    simp only [h0, hres0]
    rw [listLoop_pagesThenError get off bs' 1 0
      (dictUpdate base (q.getD [])) b rs0 fuel e (by omega)
      (by
        have := hnext 0 (by simp)
        simpa using this)
      (by
        intro i h
        have := hserve (i + 1) (by simpa using h)
        rw [show (1 : Nat) + i = i + 1 by omega]
        simpa using this)
      (by
        intro i h
        have := hnext (i + 1) (by simpa using h)
        simpa using this)
      (by
        rw [show 1 + bs'.length = bs'.length + 1 by omega]
        exact hafter)]
    simp [Body.getResultsD, hres0, Nat.add_comm, offsetsFrom, listTrace]

theorem listFetch_shape {α : Type} (base : Dict) (get : Nat → GetOutcome α)
    (off : Nat) (q : Option Dict) (fuel : Nat) (m : ListOut α)
    (h : listFetch base get off q fuel = some m) :
    1 ≤ m.gets ∧
    m.offsets = 0 :: offsetsFrom off 0 (m.gets - 1) ∧
    m.callParams = dictUpdate base (q.getD []) ::
      listTrace off (dictUpdate base (q.getD [])) 0 (m.gets - 1) := by
  rw [listFetch] at h
  cases hg : get 0 with
  | error e =>
    simp only [hg, Option.some.injEq] at h
    subst h
    exact ⟨le_rfl, rfl, rfl⟩
  | ok b =>
    cases hres : b.results with
    | none =>
      simp only [hg, hres, Option.some.injEq] at h
      subst h
      exact ⟨le_rfl, rfl, rfl⟩
    | some rs =>
      simp only [hg, hres] at h
      cases hrec : listLoop get off 1 0 (dictUpdate base (q.getD [])) b rs
          fuel with
      | none => simp [hrec] at h
      | some m2 =>
        simp only [hrec, Option.some.injEq] at h
        subst h
        obtain ⟨ho, hc⟩ := listLoop_shape get off fuel 1 0
          (dictUpdate base (q.getD [])) b rs m2 hrec
        refine ⟨by simp, ?_, ?_⟩
        · show 0 :: m2.offsets = 0 :: offsetsFrom off 0 (1 + m2.gets - 1)
          rw [ho, show 1 + m2.gets - 1 = m2.gets by omega]
        · show dictUpdate base (q.getD []) :: m2.callParams =
            dictUpdate base (q.getD []) ::
              listTrace off (dictUpdate base (q.getD [])) 0 (1 + m2.gets - 1)
          rw [hc, show 1 + m2.gets - 1 = m2.gets by omega]

theorem backoffSleeps_length (cfg : Config) :
    ∀ n a, (backoffSleeps cfg a n).length = n := by
  intro n
  induction n with
  | zero => intro a; rfl
  | succ n ih =>
    intro a
    rw [backoffSleeps, List.length_cons, ih]

theorem backoffSleeps_getElem (cfg : Config) :
    ∀ n a k, k < n →
    (backoffSleeps cfg a n)[k]? = some (calculate_backoff cfg (a + k + 1)) := by
  intro n
  induction n with
  | zero => intro a k hk; omega
  | succ n ih =>
    intro a k hk
    rw [backoffSleeps]
    cases k with
    | zero => simp
    | succ k =>
      rw [List.getElem?_cons_succ, ih (a + 1) k (by omega),
        show a + 1 + k + 1 = a + (k + 1) + 1 by omega]

theorem get_metadata_by_query_shape {α : Type} (cfg : Config)
    (post : Nat → PostOutcome α) (fuel : Nat) (m : MetaOut α)
    (h : get_metadata_by_query cfg post fuel = some m) :
    ∃ n, m.pageParams =
      searchRequestParams :: metaTrace searchRequestParams 1 n := by
  rw [get_metadata_by_query] at h
  cases hr : (retrieve_metadata_for_content_filter cfg post 0).out with
  | error e =>
    simp only [hr, Option.some.injEq] at h
    subst h
    exact ⟨0, rfl⟩
  | ok b =>
    simp only [hr] at h
    cases hrec : metadataLoop cfg post
        (retrieve_metadata_for_content_filter cfg post 0).posts 1
        searchRequestParams b b.getResultsD fuel with
    | none => simp [hrec] at h
    | some m2 =>
      simp only [hrec, Option.some.injEq] at h
      subst h
      obtain ⟨n, hn⟩ := metadataLoop_shape cfg post fuel _ 1
        searchRequestParams b b.getResultsD m2 hrec
      exact ⟨n, by rw [hn]⟩

theorem zero_cons_offsetsFrom (off g : Nat) (hg : 1 ≤ g) :
    0 :: offsetsFrom off 0 (g - 1) =
      (List.range g).map (fun i => i * off) := by
  obtain ⟨g2, rfl⟩ : ∃ g2, g = g2 + 1 := ⟨g - 1, by omega⟩
  rw [show g2 + 1 - 1 = g2 by omega, offsetsFrom_eq_range,
    List.range_succ_eq_map]
  simp only [List.map_cons, List.map_map]
  refine List.cons_eq_cons.mpr ⟨by ring, ?_⟩
  refine List.map_congr_left ?_
  intro a _
  simp only [Function.comp, Nat.succ_eq_add_one]
  ring

/-- C1: for every sequence of server pages in which each page's `next`
field is truthy except the last, `get_metadata_by_query`, `get_courses`
and `get_programs` return the in-order concatenation of each page's
`results` (page order, then in-page order); in particular, for a single
successful page the returned list is exactly that page's `results` in
order. -/
theorem claim_C1 {α : Type} (cfg : Config) (bs : List (Body α))
    (restPost : Nat → PostOutcome α) (restGet : Nat → GetOutcome α)
    (off : Nat) (q : Option Dict) (fuel : Nat)
    (hne : bs ≠ []) (hfuel : bs.length ≤ fuel)
    (hres : ∀ i (h : i < bs.length), ((bs.get ⟨i, h⟩).results).isSome = true)
    (hnext : ∀ i (h : i < bs.length),
      (bs.get ⟨i, h⟩).next = decide (i + 1 < bs.length)) :
    (∃ m, get_metadata_by_query cfg (postServerOfBodies bs restPost) fuel =
        some m ∧ m.out = Except.ok ((bs.map Body.getResultsD).flatten)) ∧
    (∃ m, get_courses (getServerOfBodies bs restGet) off q fuel = some m ∧
      m.result = (bs.map Body.getResultsD).flatten) ∧
    (∃ m, get_programs (getServerOfBodies bs restGet) off q fuel = some m ∧
      m.result = (bs.map Body.getResultsD).flatten) := by
  have hservePost : ∀ i (h : i < bs.length),
      postServerOfBodies bs restPost i =
        PostOutcome.resp 200 (some (bs.get ⟨i, h⟩)) :=
    fun i h => postServerOfBodies_lt bs restPost i h
  have hserveGet : ∀ i (h : i < bs.length),
      getServerOfBodies bs restGet i = Except.ok (bs.get ⟨i, h⟩) :=
    fun i h => getServerOfBodies_lt bs restGet i h
  refine ⟨⟨_, get_metadata_by_query_pages cfg _ bs fuel hne hfuel
    hservePost hnext, rfl⟩, ?_, ?_⟩
  · cases bs with
    | nil => exact absurd rfl hne
    | cons b bs' =>
      obtain ⟨rs0, hrs0⟩ := Option.isSome_iff_exists.mp (hres 0 (by simp))
      have happ := listFetch_pages (coursesBaseParams off)
        (getServerOfBodies (b :: bs') restGet) off q fuel b bs' rs0 hrs0
        (by simp at hfuel; omega) hserveGet hnext
      rw [← get_courses] at happ
      exact ⟨_, happ, rfl⟩
  · cases bs with
    | nil => exact absurd rfl hne
    | cons b bs' =>
      obtain ⟨rs0, hrs0⟩ := Option.isSome_iff_exists.mp (hres 0 (by simp))
      have happ := listFetch_pages (programsBaseParams off)
        (getServerOfBodies (b :: bs') restGet) off q fuel b bs' rs0 hrs0
        (by simp at hfuel; omega) hserveGet hnext
      rw [← get_programs] at happ
      exact ⟨_, happ, rfl⟩

/-- C2: in the search-path retry loop, the backoff delay slept before
retry `k` (for `k` from 1 to `MAX_RETRIES`) equals
`BACKOFF_FACTOR * 2 ^ (k - 1)`, and for a page whose every attempt fails
the total number of request attempts equals `MAX_RETRIES + 1`. -/
theorem claim_C2 {α : Type} (cfg : Config) (post : Nat → PostOutcome α)
    (t c : Nat)
    (hfail : ∀ i, c ≤ i → post i = PostOutcome.exn (Exc.request t)) :
    (∀ k, calculate_backoff cfg k = cfg.BACKOFF_FACTOR * 2 ^ (k - 1)) ∧
    (retrieve_metadata_for_content_filter cfg post c).posts =
      cfg.MAX_RETRIES + 1 ∧
    (retrieve_metadata_for_content_filter cfg post c).sleeps.length =
      cfg.MAX_RETRIES ∧
    (∀ k, 1 ≤ k → k ≤ cfg.MAX_RETRIES →
      (retrieve_metadata_for_content_filter cfg post c).sleeps[k - 1]? =
        some (cfg.BACKOFF_FACTOR * 2 ^ (k - 1))) := by
  have hloop := retrieveLoop_allExn cfg post (Exc.request t) rfl
    (cfg.MAX_RETRIES - 0) c 0 (by omega) rfl hfail
  rw [retrieve_metadata_for_content_filter, hloop]
  refine ⟨fun k => rfl, ?_, ?_, ?_⟩
  · show cfg.MAX_RETRIES + 1 - 0 = cfg.MAX_RETRIES + 1
    omega
  · show (backoffSleeps cfg 0 (cfg.MAX_RETRIES - 0)).length = cfg.MAX_RETRIES
    rw [backoffSleeps_length]
    omega
  intro k hk1 hk2
  show (backoffSleeps cfg 0 (cfg.MAX_RETRIES - 0))[k - 1]? =
    some (cfg.BACKOFF_FACTOR * 2 ^ (k - 1))
  rw [backoffSleeps_getElem cfg (cfg.MAX_RETRIES - 0) 0 (k - 1) (by omega),
    show 0 + (k - 1) + 1 = k by omega]
  rfl

/-- C3: for every page of a `get_metadata_by_query` traversal on which the
POST raises a transport exception on all `MAX_RETRIES + 1` attempts, that
same exception propagates to the caller after exactly `MAX_RETRIES + 1`
attempts on that page, and the caller receives no partial result list. -/
theorem claim_C3 {α : Type} (cfg : Config) (bs : List (Body α)) (t : Nat)
    (fuel : Nat) (hfuel : bs.length < fuel)
    (hnext : ∀ i (h : i < bs.length), (bs.get ⟨i, h⟩).next = true) :
    ∃ m, get_metadata_by_query cfg
        (postServerOfBodies bs (fun _ => PostOutcome.exn (Exc.request t)))
        fuel = some m ∧
      m.out = Except.error (Exc.request t) ∧
      m.posts = bs.length + (cfg.MAX_RETRIES + 1) ∧
      ∀ l, m.out ≠ Except.ok l := by
  have hkfail : ∀ i, bs.length ≤ i →
      postServerOfBodies bs (fun _ => PostOutcome.exn (Exc.request t)) i =
        PostOutcome.exn (Exc.request t) :=
    fun i hi => postServerOfBodies_ge bs _ i hi
  have hloop := retrieveLoop_allExn cfg
    (postServerOfBodies bs (fun _ => PostOutcome.exn (Exc.request t)))
    (Exc.request t) rfl (cfg.MAX_RETRIES - 0) bs.length 0 (by omega) rfl
    hkfail
  refine ⟨_, get_metadata_by_query_pagesThenError cfg _ bs fuel
    (Exc.request t) hfuel
    (fun i h => postServerOfBodies_lt bs _ i h) hnext
    (by rw [hloop]), ?_, ?_, ?_⟩
  · rfl
  · rw [hloop]
    show bs.length + (cfg.MAX_RETRIES + 1 - 0) =
      bs.length + (cfg.MAX_RETRIES + 1)
    omega
  · intro l hl
    simp at hl

/-- C4: for every `get_courses` or `get_programs` traversal in which some
page request raises an exception (of any kind, including a body-decode
error or `SoftTimeLimitExceeded`), the call does not raise but returns
the partial list of results accumulated from the pages fetched before
the failure — always a list, possibly incomplete, possibly empty. -/
theorem claim_C4 {α : Type} (bs : List (Body α)) (e : Exc) (off : Nat)
    (q : Option Dict) (fuel : Nat)
    (hres : ∀ i (h : i < bs.length), ((bs.get ⟨i, h⟩).results).isSome = true)
    (hfuel : bs.length ≤ fuel)
    (hnext : ∀ i (h : i < bs.length), (bs.get ⟨i, h⟩).next = true) :
    (∃ m, get_courses (getServerOfBodies bs (fun _ => Except.error e)) off q
        fuel = some m ∧
      m.result = (bs.map Body.getResultsD).flatten ∧
      m.gets = bs.length + 1) ∧
    (∃ m, get_programs (getServerOfBodies bs (fun _ => Except.error e)) off q
        fuel = some m ∧
      m.result = (bs.map Body.getResultsD).flatten ∧
      m.gets = bs.length + 1) := by
  have hserve : ∀ i (h : i < bs.length),
      getServerOfBodies bs (fun _ => Except.error e) i =
        Except.ok (bs.get ⟨i, h⟩) :=
    fun i h => getServerOfBodies_lt bs _ i h
  have hafter : getServerOfBodies bs (fun _ => Except.error e) bs.length =
      Except.error e := getServerOfBodies_ge bs _ bs.length le_rfl
  constructor
  · have happ := listFetch_pagesThenError (coursesBaseParams off)
      (getServerOfBodies bs (fun _ => Except.error e)) off q fuel bs e hres
      hfuel hserve hnext hafter
    rw [← get_courses] at happ
    exact ⟨_, happ, rfl, rfl⟩
  · have happ := listFetch_pagesThenError (programsBaseParams off)
      (getServerOfBodies bs (fun _ => Except.error e)) off q fuel bs e hres
      hfuel hserve hnext hafter
    rw [← get_programs] at happ
    exact ⟨_, happ, rfl, rfl⟩

/-- C5: for every search page on which every attempt returns a response
with status code >= 400 and no transport exception is raised, exactly
`MAX_RETRIES + 1` POST calls are made and
`_retrieve_metadata_for_content_filter` returns the last response's
parsed body as-is rather than raising; `get_metadata_by_query` then
extracts `results` (possibly empty) from it, and pagination ends when
`next` is absent. -/
theorem claim_C5 {α : Type} (cfg : Config) (post : Nat → PostOutcome α)
    (S : Nat → Nat) (B : Nat → Body α) (b : Body α) (fuel : Nat)
    (hS : ∀ i, 400 ≤ S i) :
    ((∀ i, post i = PostOutcome.resp (S i) (some (B i))) →
      retrieve_metadata_for_content_filter cfg post 0 =
        ⟨Except.ok (B cfg.MAX_RETRIES), cfg.MAX_RETRIES + 1,
         backoffSleeps cfg 0 cfg.MAX_RETRIES⟩) ∧
    (b.next = false → (∀ i, post i = PostOutcome.resp (S i) (some b)) →
      ∃ m, get_metadata_by_query cfg post fuel = some m ∧
        m.out = Except.ok b.getResultsD ∧
        m.posts = cfg.MAX_RETRIES + 1) := by
  constructor
  · intro hpost
    have hloop := retrieveLoop_allBad cfg post S (fun i => some (B i)) hS
      (cfg.MAX_RETRIES - 0) 0 0 (by omega) rfl (fun i _ => hpost i)
    rw [retrieve_metadata_for_content_filter, hloop,
      show (0 : Nat) + (cfg.MAX_RETRIES - 0) = cfg.MAX_RETRIES by omega,
      show cfg.MAX_RETRIES + 1 - 0 = cfg.MAX_RETRIES + 1 by omega,
      show cfg.MAX_RETRIES - 0 = cfg.MAX_RETRIES by omega]
    rfl
  · intro hb hpost
    have hloop := retrieveLoop_allBad cfg post S (fun _ => some b) hS
      (cfg.MAX_RETRIES - 0) 0 0 (by omega) rfl (fun i _ => hpost i)
    have hloop2 : metadataLoop cfg post (cfg.MAX_RETRIES + 1 - 0) 1
        searchRequestParams b b.getResultsD fuel =
        some ⟨Except.ok (b.getResultsD ++
          (([] : List (Body α)).map Body.getResultsD).flatten), 0, [],
          metaTrace searchRequestParams 1 0⟩ :=
      metadataLoop_pages cfg post [] _ 1 searchRequestParams b
        b.getResultsD fuel (by simp) (by simpa using hb)
        (fun i h => absurd h (Nat.not_lt_zero i))
        (fun i h => absurd h (Nat.not_lt_zero i))
    rw [get_metadata_by_query]
    simp only [retrieve_metadata_for_content_filter, hloop, parseOut]
    simp only [hloop2]
    refine ⟨_, rfl, by simp, ?_⟩
    show cfg.MAX_RETRIES + 1 - 0 + 0 = cfg.MAX_RETRIES + 1
    omega

/-- C6: for every call to `get_metadata_by_query` in which a response body
fails to parse as JSON, the decode error is not retried: it propagates to
the caller immediately on its first occurrence, with no backoff sleep
attributable to it and no further request made for that decode failure. -/
theorem claim_C6 {α : Type} (cfg : Config) (bs : List (Body α)) (fuel : Nat)
    (hfuel : bs.length < fuel)
    (hnext : ∀ i (h : i < bs.length), (bs.get ⟨i, h⟩).next = true) :
    ∃ m, get_metadata_by_query cfg
        (postServerOfBodies bs (fun _ => PostOutcome.resp 200 none)) fuel =
      some m ∧
      m.out = Except.error Exc.decode ∧
      m.posts = bs.length + 1 ∧
      m.sleeps = [] := by
  have hdec : postServerOfBodies bs (fun _ => PostOutcome.resp 200 none)
      bs.length = PostOutcome.resp 200 none :=
    postServerOfBodies_ge bs _ bs.length le_rfl
  have hloop := retrieveLoop_decode cfg
    (postServerOfBodies bs (fun _ => PostOutcome.resp 200 none)) bs.length 0
    200 (by norm_num) hdec
  refine ⟨_, get_metadata_by_query_pagesThenError cfg _ bs fuel Exc.decode
    hfuel (fun i h => postServerOfBodies_lt bs _ i h) hnext
    (by rw [hloop]), rfl, ?_, ?_⟩
  · rw [hloop]
  · rw [hloop]

/-- C9: for every fetch operation, two calls with identical inputs against
identical server response sequences yield identical result lists: each
call is a pure function of its own inputs, and no state shared across
calls is mutated. -/
theorem claim_C9 {α : Type} (cfg : Config)
    (post1 post2 : Nat → PostOutcome α) (get1 get2 : Nat → GetOutcome α)
    (off : Nat) (q : Option Dict) (fuel : Nat)
    (hpost : ∀ i, post1 i = post2 i) (hget : ∀ i, get1 i = get2 i) :
    get_metadata_by_query cfg post1 fuel =
      get_metadata_by_query cfg post2 fuel ∧
    get_courses get1 off q fuel = get_courses get2 off q fuel ∧
    get_programs get1 off q fuel = get_programs get2 off q fuel := by
  have h1 : post1 = post2 := funext hpost
  have h2 : get1 = get2 := funext hget
  subst h1
  subst h2
  exact ⟨rfl, rfl, rfl⟩

/-- C10: in `get_courses` and `get_programs` the first page's body is read
with `response.get('results')` (no default) while later pages use
`response.get('results', [])`: if the first page's body lacks a `results`
key the call returns `[]` (the `TypeError` is swallowed by the broad
handler) after its single request, whereas a later page lacking `results`
contributes an empty slice and traversal continues while `next` is
truthy. -/
theorem claim_C10 {α : Type} (b0 : Body α) (bs : List (Body α))
    (restGet : Nat → GetOutcome α) (off : Nat) (q : Option Dict)
    (fuel : Nat) (hb0 : b0.results = none)
    (hne : bs ≠ []) (hfuel : bs.length ≤ fuel)
    (hres0 : ∀ (h : 0 < bs.length), ((bs.get ⟨0, h⟩).results).isSome = true)
    (hnext : ∀ i (h : i < bs.length),
      (bs.get ⟨i, h⟩).next = decide (i + 1 < bs.length)) :
    (∃ m, get_courses (fun _ => Except.ok b0) off q fuel = some m ∧
      m.result = [] ∧ m.gets = 1) ∧
    (∃ m, get_programs (fun _ => Except.ok b0) off q fuel = some m ∧
      m.result = [] ∧ m.gets = 1) ∧
    (∃ m, get_courses (getServerOfBodies bs restGet) off q fuel = some m ∧
      m.result = (bs.map Body.getResultsD).flatten ∧
      m.gets = bs.length) ∧
    (∃ m, get_programs (getServerOfBodies bs restGet) off q fuel = some m ∧
      m.result = (bs.map Body.getResultsD).flatten ∧
      m.gets = bs.length) := by
  have hserveGet : ∀ i (h : i < bs.length),
      getServerOfBodies bs restGet i = Except.ok (bs.get ⟨i, h⟩) :=
    fun i h => getServerOfBodies_lt bs restGet i h
  have ha : ∀ base : Dict,
      listFetch base (fun _ => Except.ok b0) off q fuel =
        some ⟨[], 1, [0], [dictUpdate base (q.getD [])]⟩ := by
    intro base
    rw [listFetch]
    simp [hb0]
  refine ⟨⟨_, by rw [get_courses]; exact ha _, rfl, rfl⟩,
    ⟨_, by rw [get_programs]; exact ha _, rfl, rfl⟩, ?_, ?_⟩
  · cases bs with
    | nil => exact absurd rfl hne
    | cons b bs' =>
      obtain ⟨rs0, hrs0⟩ := Option.isSome_iff_exists.mp (hres0 (by simp))
      have happ := listFetch_pages (coursesBaseParams off)
        (getServerOfBodies (b :: bs') restGet) off q fuel b bs' rs0 hrs0
        (by simp at hfuel; omega) hserveGet hnext
      rw [← get_courses] at happ
      exact ⟨_, happ, rfl, rfl⟩
  · cases bs with
    | nil => exact absurd rfl hne
    | cons b bs' =>
      obtain ⟨rs0, hrs0⟩ := Option.isSome_iff_exists.mp (hres0 (by simp))
      have happ := listFetch_pages (programsBaseParams off)
        (getServerOfBodies (b :: bs') restGet) off q fuel b bs' rs0 hrs0
        (by simp at hfuel; omega) hserveGet hnext
      rw [← get_programs] at happ
      exact ⟨_, happ, rfl, rfl⟩

/-- C7: every search request sends `exclude_expired_course_run=true`,
`page_size=100`, `ordering='aggregation_key,start'` and
`include_learner_pathways=true`; every courses request sends
`ordering='key'` and `limit` equal to the offset-size constant; every
programs request sends the same plus `extended='True'`; and
caller-supplied query params override/extend these fixed defaults
(`get_metadata_by_query` accepts no caller-supplied params, so the
override clause is witnessed on the two list operations). -/
theorem claim_C7 {α : Type} (cfg : Config) (post : Nat → PostOutcome α)
    (get1 get2 : Nat → GetOutcome α) (off : Nat) (q : Dict) (fuel : Nat) :
    (∀ m, get_metadata_by_query cfg post fuel = some m →
      ∀ d ∈ m.pageParams,
        dictGet d "exclude_expired_course_run" = some (PValue.vb true) ∧
        dictGet d "page_size" = some (PValue.vn 100) ∧
        dictGet d "ordering" = some (PValue.vs "aggregation_key,start") ∧
        dictGet d "include_learner_pathways" = some (PValue.vb true)) ∧
    (dictGet q "ordering" = none → dictGet q "limit" = none →
      ∀ m, get_courses get1 off (some q) fuel = some m →
      ∀ d ∈ m.callParams,
        dictGet d "ordering" = some (PValue.vs "key") ∧
        dictGet d "limit" = some (PValue.vn off)) ∧
    (dictGet q "ordering" = none → dictGet q "limit" = none →
      dictGet q "extended" = none →
      ∀ m, get_programs get2 off (some q) fuel = some m →
      ∀ d ∈ m.callParams,
        dictGet d "ordering" = some (PValue.vs "key") ∧
        dictGet d "limit" = some (PValue.vn off) ∧
        dictGet d "extended" = some (PValue.vs "True")) ∧
    ((q.map Prod.fst).Nodup → ∀ k v, dictGet q k = some v →
      dictGet (dictUpdate (coursesBaseParams off) q) k = some v ∧
      dictGet (dictUpdate (programsBaseParams off) q) k = some v) := by
  refine ⟨?_, ?_, ?_, ?_⟩
  · intro m hm d hd
    obtain ⟨n, hn⟩ := get_metadata_by_query_shape cfg post fuel m hm
    rw [hn] at hd
    rcases List.mem_cons.mp hd with h | h
    · subst h
      exact ⟨rfl, rfl, rfl, rfl⟩
    · exact ⟨(metaTrace_mem_pres "exclude_expired_course_run" (by decide) n
          searchRequestParams 1 d h).trans rfl,
        (metaTrace_mem_pres "page_size" (by decide) n
          searchRequestParams 1 d h).trans rfl,
        (metaTrace_mem_pres "ordering" (by decide) n
          searchRequestParams 1 d h).trans rfl,
        (metaTrace_mem_pres "include_learner_pathways" (by decide) n
          searchRequestParams 1 d h).trans rfl⟩
  · intro hqo hql m hm d hd
    obtain ⟨hg1, hoff, hcp⟩ := listFetch_shape (coursesBaseParams off) get1
      off (some q) fuel m (by rwa [get_courses] at hm)
    have hord : dictGet (dictUpdate (coursesBaseParams off) q) "ordering" =
        some (PValue.vs "key") := by
      rw [dictGet_dictUpdate_of_none _ _ _ hqo]
      rfl
    have hlim : dictGet (dictUpdate (coursesBaseParams off) q) "limit" =
        some (PValue.vn off) := by
      rw [dictGet_dictUpdate_of_none _ _ _ hql]
      rfl
    rw [hcp] at hd
    rcases List.mem_cons.mp hd with h | h
    · subst h
      exact ⟨hord, hlim⟩
    · exact ⟨(listTrace_mem_pres off "ordering" (by decide) _ _ _ d h).trans
          hord,
        (listTrace_mem_pres off "limit" (by decide) _ _ _ d h).trans hlim⟩
  · intro hqo hql hqe m hm d hd
    obtain ⟨hg1, hoff, hcp⟩ := listFetch_shape (programsBaseParams off) get2
      off (some q) fuel m (by rwa [get_programs] at hm)
    have hord : dictGet (dictUpdate (programsBaseParams off) q) "ordering" =
        some (PValue.vs "key") := by
      rw [dictGet_dictUpdate_of_none _ _ _ hqo]
      rfl
    have hlim : dictGet (dictUpdate (programsBaseParams off) q) "limit" =
        some (PValue.vn off) := by
      rw [dictGet_dictUpdate_of_none _ _ _ hql]
      rfl
    have hext : dictGet (dictUpdate (programsBaseParams off) q) "extended" =
        some (PValue.vs "True") := by
      rw [dictGet_dictUpdate_of_none _ _ _ hqe]
      rfl
    rw [hcp] at hd
    rcases List.mem_cons.mp hd with h | h
    · subst h
      exact ⟨hord, hlim, hext⟩
    · exact ⟨(listTrace_mem_pres off "ordering" (by decide) _ _ _ d h).trans
          hord,
        (listTrace_mem_pres off "limit" (by decide) _ _ _ d h).trans hlim,
        (listTrace_mem_pres off "extended" (by decide) _ _ _ d h).trans hext⟩
  · intro hnd k v hkv
    exact ⟨dictGet_dictUpdate_of_some _ _ _ _ hnd hkv,
      dictGet_dictUpdate_of_some _ _ _ _ hnd hkv⟩

/-- C8: in every `get_courses` and `get_programs` traversal (with no
caller-supplied `offset` parameter), the integer offset starts at 0 and
advances by the fixed page-size constant on each iteration taken, and
`offset` is sent as a query parameter only on requests after the first:
the first request's params carry no `offset` key, and the `i`-th request
(0-based, `i >= 1`) carries `offset = i * DISCOVERY_OFFSET_SIZE`. -/
theorem claim_C8 {α : Type} (get1 get2 : Nat → GetOutcome α) (off : Nat)
    (q : Dict) (fuel : Nat) (m m2 : ListOut α)
    (hq : dictGet q "offset" = none)
    (hc : get_courses get1 off (some q) fuel = some m)
    (hp : get_programs get2 off (some q) fuel = some m2) :
    (1 ≤ m.gets ∧
     m.offsets = (List.range m.gets).map (fun i => i * off) ∧
     m.callParams[0]? = some (dictUpdate (coursesBaseParams off) q) ∧
     dictGet (dictUpdate (coursesBaseParams off) q) "offset" = none ∧
     (∀ i, 1 ≤ i → i < m.gets →
       ∃ d, m.callParams[i]? = some d ∧
         dictGet d "offset" = some (PValue.vn (i * off)))) ∧
    (1 ≤ m2.gets ∧
     m2.offsets = (List.range m2.gets).map (fun i => i * off) ∧
     m2.callParams[0]? = some (dictUpdate (programsBaseParams off) q) ∧
     dictGet (dictUpdate (programsBaseParams off) q) "offset" = none ∧
     (∀ i, 1 ≤ i → i < m2.gets →
       ∃ d, m2.callParams[i]? = some d ∧
         dictGet d "offset" = some (PValue.vn (i * off)))) := by
  have main : ∀ (base : Dict) (get : Nat → GetOutcome α) (mm : ListOut α),
      dictGet base "offset" = none →
      listFetch base get off (some q) fuel = some mm →
      1 ≤ mm.gets ∧
      mm.offsets = (List.range mm.gets).map (fun i => i * off) ∧
      mm.callParams[0]? = some (dictUpdate base q) ∧
      dictGet (dictUpdate base q) "offset" = none ∧
      (∀ i, 1 ≤ i → i < mm.gets →
        ∃ d, mm.callParams[i]? = some d ∧
          dictGet d "offset" = some (PValue.vn (i * off))) := by
    intro base get mm hbase hmm
    obtain ⟨hg1, hoff, hcp⟩ := listFetch_shape base get off (some q) fuel
      mm hmm
    have hnone : dictGet (dictUpdate base q) "offset" = none := by
      rw [dictGet_dictUpdate_of_none _ _ _ hq, hbase]
    refine ⟨hg1, ?_, ?_, hnone, ?_⟩
    · rw [hoff, zero_cons_offsetsFrom off mm.gets hg1]
    · rw [hcp]
      simp
    · intro i hi1 hi2
      obtain ⟨d, hd, hdget⟩ := listTrace_getElem_offset off (mm.gets - 1)
        (dictUpdate base q) 0 (i - 1) (by omega)
      refine ⟨d, ?_, ?_⟩
      · rw [hcp, show i = (i - 1) + 1 by omega, List.getElem?_cons_succ]
        exact hd
      · rw [hdget]
        have h3 : 0 + (i - 1 + 1) * off = i * off := by
          rw [show i - 1 + 1 = i by omega, Nat.zero_add]
        rw [h3]
  exact ⟨main (coursesBaseParams off) get1 m rfl
      (by rwa [get_courses] at hc),
    main (programsBaseParams off) get2 m2 rfl
      (by rwa [get_programs] at hp)⟩

/-- Witness for C1 at a concrete two-page traversal. -/
theorem claim_C1_witness :
    (∃ m, get_metadata_by_query defaultConfig
        (postServerOfBodies
          [(⟨some [1, 2], true⟩ : Body Nat), ⟨some [3], false⟩]
          (fun _ => PostOutcome.exn (Exc.other 0))) 2 = some m ∧
      m.out = Except.ok
        (([(⟨some [1, 2], true⟩ : Body Nat), ⟨some [3], false⟩].map
          Body.getResultsD).flatten)) ∧
    (∃ m, get_courses
        (getServerOfBodies
          [(⟨some [1, 2], true⟩ : Body Nat), ⟨some [3], false⟩]
          (fun _ => Except.error (Exc.other 0))) 20 none 2 = some m ∧
      m.result = ([(⟨some [1, 2], true⟩ : Body Nat), ⟨some [3], false⟩].map
        Body.getResultsD).flatten) := by
  have h := claim_C1 defaultConfig
    [(⟨some [1, 2], true⟩ : Body Nat), ⟨some [3], false⟩]
    (fun _ => PostOutcome.exn (Exc.other 0))
    (fun _ => Except.error (Exc.other 0)) 20 none 2
    (by decide) (by decide) (by decide) (by decide)
  exact ⟨h.1, h.2.1⟩

/-- Witness for C2 at the default configuration with an always-failing
transport. -/
theorem claim_C2_witness :
    (retrieve_metadata_for_content_filter (α := Nat) defaultConfig
        (fun _ => PostOutcome.exn (Exc.request 7)) 0).posts =
      defaultConfig.MAX_RETRIES + 1 ∧
    (retrieve_metadata_for_content_filter (α := Nat) defaultConfig
        (fun _ => PostOutcome.exn (Exc.request 7)) 0).sleeps[1]? =
      some (defaultConfig.BACKOFF_FACTOR * 2 ^ (2 - 1)) := by
  have h := claim_C2 (α := Nat) defaultConfig
    (fun _ => PostOutcome.exn (Exc.request 7)) 7 0 (fun i _ => rfl)
  exact ⟨h.2.1, h.2.2.2 2 (by decide) (by decide)⟩

/-- Witness for C3: one good page, then a page failing every attempt. -/
theorem claim_C3_witness :
    ∃ m, get_metadata_by_query defaultConfig
        (postServerOfBodies [(⟨some [1], true⟩ : Body Nat)]
          (fun _ => PostOutcome.exn (Exc.request 7))) 2 = some m ∧
      m.out = Except.error (Exc.request 7) ∧
      m.posts = [(⟨some [1], true⟩ : Body Nat)].length +
        (defaultConfig.MAX_RETRIES + 1) ∧
      ∀ l, m.out ≠ Except.ok l :=
  claim_C3 defaultConfig [⟨some [1], true⟩] 7 2 (by decide) (by decide)

/-- Witness for C4: one good page, then a soft-time-limit signal. -/
theorem claim_C4_witness :
    (∃ m, get_courses
        (getServerOfBodies [(⟨some [5], true⟩ : Body Nat)]
          (fun _ => Except.error Exc.softTimeLimit)) 20 none 1 = some m ∧
      m.result = ([(⟨some [5], true⟩ : Body Nat)].map
        Body.getResultsD).flatten ∧
      m.gets = [(⟨some [5], true⟩ : Body Nat)].length + 1) ∧
    (∃ m, get_programs
        (getServerOfBodies [(⟨some [5], true⟩ : Body Nat)]
          (fun _ => Except.error Exc.softTimeLimit)) 20 none 1 = some m ∧
      m.result = ([(⟨some [5], true⟩ : Body Nat)].map
        Body.getResultsD).flatten ∧
      m.gets = [(⟨some [5], true⟩ : Body Nat)].length + 1) :=
  claim_C4 [⟨some [5], true⟩] Exc.softTimeLimit 20 none 1 (by decide)
    (by decide) (by decide)

/-- Witness for C5: every attempt returns status 400 with a parseable
body. -/
theorem claim_C5_witness :
    retrieve_metadata_for_content_filter (α := Nat) defaultConfig
        (fun _ => PostOutcome.resp 400 (some ⟨some [9], false⟩)) 0 =
      ⟨Except.ok ⟨some [9], false⟩, defaultConfig.MAX_RETRIES + 1,
       backoffSleeps defaultConfig 0 defaultConfig.MAX_RETRIES⟩ ∧
    (∃ m, get_metadata_by_query (α := Nat) defaultConfig
        (fun _ => PostOutcome.resp 400 (some ⟨some [9], false⟩)) 1 =
      some m ∧
      m.out = Except.ok [9] ∧ m.posts = defaultConfig.MAX_RETRIES + 1) := by
  have h := claim_C5 (α := Nat) defaultConfig
    (fun _ => PostOutcome.resp 400 (some ⟨some [9], false⟩))
    (fun _ => 400) (fun _ => ⟨some [9], false⟩) ⟨some [9], false⟩ 1
    (fun _ => le_rfl)
  exact ⟨h.1 (fun _ => rfl), h.2 rfl (fun _ => rfl)⟩

/-- Witness for C6: the very first response parses with a decode error. -/
theorem claim_C6_witness :
    ∃ m, get_metadata_by_query defaultConfig
        (postServerOfBodies ([] : List (Body Nat))
          (fun _ => PostOutcome.resp 200 none)) 1 = some m ∧
      m.out = Except.error Exc.decode ∧
      m.posts = ([] : List (Body Nat)).length + 1 ∧
      m.sleeps = [] :=
  claim_C6 defaultConfig [] 1 (by decide) (by decide)

/-- Witness for C7 at concrete traversals (one search page, two course
pages) with a caller-supplied `page_size` override. -/
theorem claim_C7_witness :
    (∀ d ∈ searchRequestParams :: metaTrace searchRequestParams 1 0,
      dictGet d "exclude_expired_course_run" = some (PValue.vb true) ∧
      dictGet d "page_size" = some (PValue.vn 100) ∧
      dictGet d "ordering" = some (PValue.vs "aggregation_key,start") ∧
      dictGet d "include_learner_pathways" = some (PValue.vb true)) ∧
    (∀ d ∈ dictUpdate (coursesBaseParams 20) [("page_size", PValue.vn 5)] ::
        listTrace 20
          (dictUpdate (coursesBaseParams 20) [("page_size", PValue.vn 5)])
          0 1,
      dictGet d "ordering" = some (PValue.vs "key") ∧
      dictGet d "limit" = some (PValue.vn 20)) ∧
    dictGet (dictUpdate (coursesBaseParams 20) [("page_size", PValue.vn 5)])
      "page_size" = some (PValue.vn 5) ∧
    dictGet (dictUpdate (programsBaseParams 20) [("page_size", PValue.vn 5)])
      "page_size" = some (PValue.vn 5) := by
  have hmMeta := get_metadata_by_query_pages defaultConfig
    (postServerOfBodies [(⟨some [1], false⟩ : Body Nat)]
      (fun _ => PostOutcome.exn (Exc.other 0)))
    [(⟨some [1], false⟩ : Body Nat)] 1 (by decide) (by decide)
    (fun i h => postServerOfBodies_lt _ _ i h) (by decide)
  have hmC := listFetch_pages (coursesBaseParams 20)
    (getServerOfBodies [(⟨some [1], true⟩ : Body Nat), ⟨some [2], false⟩]
      (fun _ => Except.error (Exc.other 0)))
    20 (some [("page_size", PValue.vn 5)]) 1 ⟨some [1], true⟩
    [⟨some [2], false⟩] [1] rfl (by decide)
    (fun i h => getServerOfBodies_lt _ _ i h) (by decide)
  rw [← get_courses] at hmC
  have h1 := (claim_C7 defaultConfig
    (postServerOfBodies [(⟨some [1], false⟩ : Body Nat)]
      (fun _ => PostOutcome.exn (Exc.other 0)))
    (getServerOfBodies [(⟨some [1], true⟩ : Body Nat), ⟨some [2], false⟩]
      (fun _ => Except.error (Exc.other 0)))
    (getServerOfBodies [(⟨some [1], true⟩ : Body Nat), ⟨some [2], false⟩]
      (fun _ => Except.error (Exc.other 0)))
    20 [("page_size", PValue.vn 5)] 1)
  exact ⟨h1.1 _ hmMeta, h1.2.1 rfl rfl _ hmC,
    (h1.2.2.2 (by decide) "page_size" (PValue.vn 5) rfl).1,
    (h1.2.2.2 (by decide) "page_size" (PValue.vn 5) rfl).2⟩

/-- Witness for C8 at a concrete two-page course traversal. -/
theorem claim_C8_witness :
    (0 :: offsetsFrom 20 0 1 : List Nat) =
      (List.range (1 + 1)).map (fun i => i * 20) := by
  have hmC := listFetch_pages (coursesBaseParams 20)
    (getServerOfBodies [(⟨some [1], true⟩ : Body Nat), ⟨some [2], false⟩]
      (fun _ => Except.error (Exc.other 0)))
    20 (some [("page_size", PValue.vn 5)]) 1 ⟨some [1], true⟩
    [⟨some [2], false⟩] [1] rfl (by decide)
    (fun i h => getServerOfBodies_lt _ _ i h) (by decide)
  rw [← get_courses] at hmC
  have hmP := listFetch_pages (programsBaseParams 20)
    (getServerOfBodies [(⟨some [1], true⟩ : Body Nat), ⟨some [2], false⟩]
      (fun _ => Except.error (Exc.other 0)))
    20 (some [("page_size", PValue.vn 5)]) 1 ⟨some [1], true⟩
    [⟨some [2], false⟩] [1] rfl (by decide)
    (fun i h => getServerOfBodies_lt _ _ i h) (by decide)
  rw [← get_programs] at hmP
  exact ((claim_C8 _ _ 20 [("page_size", PValue.vn 5)] 1 _ _ rfl hmC
    hmP).1).2.1

/-- Witness for C9 at a concrete oracle. -/
theorem claim_C9_witness :
    get_metadata_by_query (α := Nat) defaultConfig
        (fun _ => PostOutcome.exn (Exc.other 0)) 1 =
      get_metadata_by_query (α := Nat) defaultConfig
        (fun _ => PostOutcome.exn (Exc.other 0)) 1 ∧
    get_courses (α := Nat) (fun _ => Except.error (Exc.other 0)) 20 none 1 =
      get_courses (fun _ => Except.error (Exc.other 0)) 20 none 1 := by
  have h := claim_C9 (α := Nat) defaultConfig
    (fun _ => PostOutcome.exn (Exc.other 0))
    (fun _ => PostOutcome.exn (Exc.other 0))
    (fun _ => Except.error (Exc.other 0))
    (fun _ => Except.error (Exc.other 0)) 20 none 1
    (fun _ => rfl) (fun _ => rfl)
  exact ⟨h.1, h.2.1⟩

/-- Witness for C10: a first page without `results`, and a traversal whose
middle page lacks `results`. -/
theorem claim_C10_witness :
    (∃ m, get_courses (α := Nat) (fun _ => Except.ok ⟨none, true⟩) 20 none 3 =
      some m ∧ m.result = [] ∧ m.gets = 1) ∧
    (∃ m, get_courses
        (getServerOfBodies
          [(⟨some [1], true⟩ : Body Nat), ⟨none, true⟩, ⟨some [3], false⟩]
          (fun _ => Except.error (Exc.other 0))) 20 none 3 = some m ∧
      m.result = ([(⟨some [1], true⟩ : Body Nat), ⟨none, true⟩,
        ⟨some [3], false⟩].map Body.getResultsD).flatten ∧
      m.gets = [(⟨some [1], true⟩ : Body Nat), ⟨none, true⟩,
        ⟨some [3], false⟩].length) := by
  have h := claim_C10 (⟨none, true⟩ : Body Nat)
    [(⟨some [1], true⟩ : Body Nat), ⟨none, true⟩, ⟨some [3], false⟩]
    (fun _ => Except.error (Exc.other 0)) 20 none 3 rfl (by decide)
    (by decide) (fun _ => rfl) (by decide)
  exact ⟨h.1, h.2.2.1⟩

end Discovery
